import Mathlib

set_option linter.unusedVariables false

namespace Loomchain

/-- Byte strings: Go `[]byte` contents, each byte a `Nat` (< 256 where it matters). -/
abbrev Bytes := List Nat

/-- Go `bytes.Compare` lexicographic ordering on byte strings. -/
def bytesCompare : Bytes → Bytes → Ordering
  | [], [] => .eq
  | [], _ :: _ => .lt
  | _ :: _, [] => .gt
  | a :: as, b :: bs =>
    if a < b then .lt else if b < a then .gt else bytesCompare as bs

/-- Inner loop of `prefixRangeEnd`, operating on the REVERSED `end` slice.
`b` is the current last byte, `rest` the remaining (reversed) bytes before it.
Returns the final (still reversed) `end`, `none` modelling Go `nil`. -/
def rangeEndLoop : Nat → Bytes → Option Bytes
  | b, rest =>
    if b ≠ 255 then some ((b + 1) :: rest)
    else
      match rest with
      | [] => none
      | b2 :: rest2 => rangeEndLoop b2 rest2

/-- Embeds `prefixRangeEnd` (store/iavlstore.go). A Go slice is `Option Bytes`:
`none` is Go `nil`, `some bs` a non-nil slice. The Go code checks `prefix == nil`
only; on a non-nil zero-length slice it evaluates `end[len(end)-1]` with
`len(end) = 0`, an out-of-bounds index, modelled as `.error`. -/
def prefixRangeEnd : Option Bytes → Except String (Option Bytes)
  | none => .ok none
  | some p =>
    match p.reverse with
    | [] => .error "runtime error: index out of range"
    | b :: rest => .ok ((rangeEndLoop b rest).map List.reverse)

example : prefixRangeEnd (some [97, 98]) = .ok (some [97, 99]) := rfl
example : prefixRangeEnd (some [97, 255]) = .ok (some [98]) := rfl
example : prefixRangeEnd (some [255, 255]) = .ok none := rfl
example : prefixRangeEnd (some []) = .error "runtime error: index out of range" := rfl
example : prefixRangeEnd none = .ok none := rfl

/-! Order facts about `bytesCompare` (the Go `bytes.Compare` order). -/

theorem bytesCompare_refl (x : Bytes) : bytesCompare x x = .eq := by
  induction x with
  | nil => rfl
  | cons a as ih => simp [bytesCompare, ih]

theorem bytesCompare_eq_iff : ∀ {x y : Bytes}, bytesCompare x y = .eq ↔ x = y := by
  intro x
  induction x with
  | nil => intro y; cases y <;> simp [bytesCompare]
  | cons a as ih =>
    intro y
    cases y with
    | nil => simp [bytesCompare]
    | cons b bs =>
      rcases Nat.lt_trichotomy a b with hab | hab | hab
      · simp only [bytesCompare, if_pos hab]
        constructor
        · intro h; cases h
        · intro h
          exact absurd (List.cons.injEq .. ▸ h).1 (Nat.ne_of_lt hab)
      · subst hab
        simp [bytesCompare, ih]
      · simp only [bytesCompare, if_neg (Nat.lt_asymm hab), if_pos hab]
        constructor
        · intro h; cases h
        · intro h
          exact absurd (List.cons.injEq .. ▸ h).1 (Nat.ne_of_gt hab)

theorem bytesCompare_gt_iff : ∀ {x y : Bytes},
    bytesCompare x y = .gt ↔ bytesCompare y x = .lt := by
  intro x
  induction x with
  | nil => intro y; cases y <;> simp [bytesCompare]
  | cons a as ih =>
    intro y
    cases y with
    | nil => simp [bytesCompare]
    | cons b bs =>
      rcases Nat.lt_trichotomy a b with hab | hab | hab
      · simp [bytesCompare, hab, Nat.lt_asymm hab]
      · subst hab
        simp [bytesCompare, Nat.lt_irrefl, ih]
      · simp [bytesCompare, hab, Nat.lt_asymm hab]

theorem bytesCompare_lt_trans : ∀ {x y z : Bytes},
    bytesCompare x y = .lt → bytesCompare y z = .lt → bytesCompare x z = .lt := by
  intro x
  induction x with
  | nil =>
    intro y z hxy hyz
    cases y with
    | nil => exact hyz
    | cons b bs =>
      cases z with
      | nil => simp [bytesCompare] at hyz
      | cons c cs => rfl
  | cons a as ih =>
    intro y z hxy hyz
    cases y with
    | nil => simp [bytesCompare] at hxy
    | cons b bs =>
      cases z with
      | nil => simp [bytesCompare] at hyz
      | cons c cs =>
        simp only [bytesCompare] at hxy hyz ⊢
        rcases Nat.lt_trichotomy a b with hab | hab | hab
        · rcases Nat.lt_trichotomy b c with hbc | hbc | hbc
          · simp [if_pos (Nat.lt_trans hab hbc)]
          · subst hbc; simp [if_pos hab]
          · simp [hbc, Nat.lt_asymm hbc] at hyz
        · subst hab
          rcases Nat.lt_trichotomy a c with hac | hac | hac
          · simp [if_pos hac]
          · subst hac
            rw [if_neg (Nat.lt_irrefl a), if_neg (Nat.lt_irrefl a)] at hxy hyz ⊢
            exact ih hxy hyz
          · simp [hac, Nat.lt_asymm hac] at hyz
        · simp [hab, Nat.lt_asymm hab] at hxy

theorem bytesCompare_ne_of_lt {x y : Bytes} (h : bytesCompare x y = .lt) : x ≠ y := by
  intro he
  subst he
  rw [bytesCompare_refl] at h
  cases h

/-! The IAVL tree contents, modelled extensionally.

The tree itself (`iavl.VersionedTree`) is an external dependency
(`github.com/tendermint/iavl`), not part of this repository's sources; the spec
describes it as a key/value mapping whose saved-version digest "is a pure
function of the mapping's contents at that version". We model the contents as a
key/value list kept canonically sorted by `bytesCompare`, and the digest as a
concrete pure function of that canonical list. -/

/-- Key/value mapping contents: a list of (key, value) pairs. The canonical form
used for the tree contents is strictly sorted by key. -/
abbrev KVMap := List (Bytes × Bytes)

/-- Exact-key lookup (`tree.Get`). -/
def lookupKV (k : Bytes) : KVMap → Option Bytes
  | [] => none
  | (k', v) :: rest => if k = k' then some v else lookupKV k rest

/-- Insert or replace a key, keeping the canonical sorted order (`tree.Set`). -/
def insertSorted (k v : Bytes) : KVMap → KVMap
  | [] => [(k, v)]
  | (k', v') :: rest =>
    match bytesCompare k k' with
    | .lt => (k, v) :: (k', v') :: rest
    | .eq => (k, v) :: rest
    | .gt => (k', v') :: insertSorted k v rest

/-- Remove a key if present (`tree.Remove`). -/
def deleteKey (k : Bytes) (m : KVMap) : KVMap :=
  m.filter (fun kv => decide (kv.1 ≠ k))

/-- Modelled from the spec: the digest computed by the external `iavl` tree.
Any concrete pure function of the canonical contents will do; this one mixes
every key and value byte into an accumulator. -/
def treeHash (m : KVMap) : Nat :=
  m.foldl
    (fun acc kv =>
      (kv.1.foldl (fun a b => a * 257 + b + 1) (acc * 31 + 17)) * 263 +
        kv.2.foldl (fun a b => a * 257 + b + 1) 11)
    7

/-- Embeds `IAVLStore` (the versioned store): the tree contents, the set of saved
versions still present in the tree, the latest version number (`tree.Version64`),
and the pruning retention window `maxVersions`. -/
@[ext]
structure IAVLStore where
  contents : KVMap
  versions : List Int
  version : Int
  maxVersions : Int
deriving Repr, DecidableEq

/-- Embeds `IAVLStore.Set`. -/
def IAVLStore.Set (s : IAVLStore) (key val : Bytes) : IAVLStore :=
  { s with contents := insertSorted key val s.contents }

/-- Embeds `IAVLStore.Delete`. -/
def IAVLStore.Delete (s : IAVLStore) (key : Bytes) : IAVLStore :=
  { s with contents := deleteKey key s.contents }

/-- Embeds `IAVLStore.Get`: `none` models the nil byte slice returned for an
absent key. -/
def IAVLStore.Get (s : IAVLStore) (key : Bytes) : Option Bytes :=
  lookupKV key s.contents

/-- Embeds `IAVLStore.Has`. -/
def IAVLStore.Has (s : IAVLStore) (key : Bytes) : Bool :=
  (lookupKV key s.contents).isSome

/-- Embeds `IAVLStore.Hash` (`tree.Hash`). -/
def IAVLStore.Hash (s : IAVLStore) : Nat :=
  treeHash s.contents

/-- Embeds `IAVLStore.Version` (`tree.Version64`). -/
def IAVLStore.Version (s : IAVLStore) : Int :=
  s.version

/-- Embeds `IAVLStore.SaveVersion`. `tree.SaveVersion` persists the current
contents as version `oldVersion+1`; a backing-engine persistence failure is a
collaborator outcome passed in as `ioErr`, wrapped with the attempted version
number as in the Go code. -/
def IAVLStore.SaveVersion (s : IAVLStore) (ioErr : Option String) :
    Except String (Nat × Int × IAVLStore) :=
  let oldVersion := s.Version
  match ioErr with
  | some e =>
    .error ("failed to save tree version " ++ toString (oldVersion + 1) ++ ": " ++ e)
  | none =>
    let v := oldVersion + 1
    .ok (s.Hash, v, { s with version := v, versions := s.versions ++ [v] })

/-- Embeds `IAVLStore.Prune`: computes `oldVer = latestVer - maxVersions`, is a
no-op when `oldVer < 1`, and otherwise deletes that version if it still exists
(`tree.DeleteVersion`, modelled as erasing it from the saved-version list). -/
def IAVLStore.Prune (s : IAVLStore) : IAVLStore :=
  let latestVer := s.Version
  let oldVer := latestVer - s.maxVersions
  if oldVer < 1 then s
  else if oldVer ∈ s.versions then { s with versions := s.versions.erase oldVer }
  else s

/-- Embeds `NewIAVLStore`: `tree.Load()` restores whatever contents, saved
versions and latest version the backing database holds (arbitrary here), and
`maxVersions` is clamped to a minimum of 2. -/
def NewIAVLStore (contents : KVMap) (versions : List Int) (version : Int)
    (maxVersions : Int) : IAVLStore :=
  { contents := contents
    versions := versions
    version := version
    maxVersions := if maxVersions < 2 then 2 else maxVersions }

/-- A fresh store over an empty backing database. -/
def emptyIAVLStore : IAVLStore :=
  { contents := [], versions := [], version := 0, maxVersions := 2 }

/-- A Set or Delete operation against the store. -/
inductive StoreOp where
  | set : Bytes → Bytes → StoreOp
  | del : Bytes → StoreOp
deriving Repr, DecidableEq

/-- Apply one operation through the store's own `Set`/`Delete`. -/
def applyOp (s : IAVLStore) : StoreOp → IAVLStore
  | .set k v => s.Set k v
  | .del k => s.Delete k

/-- Apply a sequence of Set/Delete operations in order. -/
def applyOps (s : IAVLStore) (ops : List StoreOp) : IAVLStore :=
  ops.foldl applyOp s

/-! Range queries. -/

/-- Does byte string `p` start byte string `k`? -/
def hasPref : Bytes → Bytes → Bool
  | [], _ => true
  | _ :: _, [] => false
  | a :: as, b :: bs => a == b && hasPref as bs

/-- Membership in the half-open key interval `[lo, hi)` under the tree's
`bytes.Compare` order; a `none` bound is absent (unbounded on that side). -/
def inKeyRange (lo hi : Option Bytes) (k : Bytes) : Bool :=
  (match lo with
   | none => true
   | some l => decide (bytesCompare l k ≠ .gt)) &&
  (match hi with
   | none => true
   | some u => decide (bytesCompare k u = .lt))

/-- Embeds `IAVLStore.Range`. The backing engine (`tree.GetRangeWithProof`) is a
collaborator returning the gathered key/value pairs and an optional error; the
Go code logs the error and still copies the returned pairs into the result, so
an engine error never propagates. An out-of-bounds panic raised inside
`prefixRangeEnd` is the only failing outcome (`.error`). -/
def IAVLStore.RangeWith (s : IAVLStore)
    (engine : IAVLStore → Option Bytes → Option Bytes → List (Bytes × Bytes) × Option String)
    (pre : Option Bytes) : Except String (List (Bytes × Bytes)) :=
  match prefixRangeEnd pre with
  | .error e => .error e
  | .ok endKey =>
    let out := engine s pre endKey
    -- out.2 (the engine error) is logged via log.Error and otherwise ignored
    .ok out.1

/-- Modelled from the spec: a correctly functioning backing engine — on a range
query it returns exactly the stored pairs whose keys lie in `[lo, hi)` (a nil
`lo` is unbounded below) and reports no error. -/
def honestEngine (s : IAVLStore) (lo hi : Option Bytes) :
    List (Bytes × Bytes) × Option String :=
  (s.contents.filter (fun kv => inKeyRange lo hi kv.1), none)

/-! The ABCI Application (app.go). Collaborator interfaces (TxHandler, receipt
handler, event handler, validator/chain-config managers, auxiliary stores) are
external to the core; their outcomes are passed in as explicit parameters. An
atomic transaction (`store.WrapAtomic(a.Store).BeginTx()`) is modelled as a
staged copy of the committed contents: `Rollback` drops the copy, `Commit`
writes it back as the committed contents. Go `panic` is modelled as `.error`. -/

/-- Result of the transaction-processing callback (`txhandler.TxHandlerResult`),
plus the EVM receipt hash the receipt handler holds afterwards (if any). -/
structure TxResult where
  data : Bytes
  info : String
  receiptHash : Option Bytes
deriving Repr, DecidableEq

/-- The transaction-processing collaborator `TxHandler.ProcessTx`: from the
staged state view it computes the updated staged contents, a result, and an
optional error. -/
abbrev TxHandlerFn := KVMap → KVMap × TxResult × Option String

/-- `utils.CallEVM` (external constant; only equality on it matters here). -/
def callEVM : String := "call:evm"

/-- `utils.DeployEvm` (external constant; only equality on it matters here). -/
def deployEvm : String := "deploy:evm"

/-- Modelled from the spec: `ttypes.Tx(txBytes).Hash()` — the Tendermint
transaction hash, an external pure function of the bytes (identity here). -/
def txHash (b : Bytes) : Bytes := b

structure ResponseCheckTx where
  code : Nat
  log : String
deriving Repr, DecidableEq

structure ResponseDeliverTx where
  code : Nat
  data : Bytes
  info : String
  log : String
deriving Repr, DecidableEq

structure ResponseCommit where
  data : Nat
deriving Repr, DecidableEq

/-- Embeds the `Application` state: the canonical store (committed contents and
latest saved version), current/last block headers (height, hash), the cached
on-chain config, pending cross-reference records, receipt-related feature flags,
and the `log.Error` output (observability only). -/
@[ext]
structure Application where
  storeCommitted : KVMap
  storeVersion : Int
  curBlockHeight : Int
  lastBlockHeight : Int
  curBlockHash : Bytes
  config : Option Nat
  childTxRefs : List (Bytes × Bytes)
  featureReceiptsV31 : Bool
  featureReceiptsV3 : Bool
  receiptsVersion : Int
  logs : List String
deriving Repr, DecidableEq

/-- Embeds `Application.height`. -/
def Application.height (a : Application) : Int :=
  a.storeVersion + 1

/-- Embeds `Application.CheckTx`: skipped entirely before the first BeginBlock
(`curBlockHeader.Height == 0`); otherwise runs the callback in check mode over a
disposable transaction that is rolled back on every path (the staged contents
are dropped; receipts and events are likewise discarded). -/
def Application.CheckTx (a : Application) (handler : TxHandlerFn) (txBytes : Bytes) :
    ResponseCheckTx × Application :=
  if a.curBlockHeight = 0 then
    ({ code := 0, log := "" }, a)
  else
    let storeTx := a.storeCommitted
    let out := handler storeTx
    -- deferred storeTx.Rollback(): out.1 (the staged contents) is dropped on
    -- every path below; no path commits it
    match out.2.2 with
    | some e =>
      ({ code := 1, log := e },
       { a with logs := a.logs ++ ["CheckTx err: " ++ e] })
    | none => ({ code := 0, log := "" }, a)

/-- Embeds `Application.processTx`: runs the callback; on error returns it with
the transaction rolled back (staged contents dropped); otherwise, in deliver
mode, commits events, records a cross-reference when an EVM receipt with a
different hash was produced, and commits the staged contents. -/
def Application.processTx (a : Application) (handler : TxHandlerFn) (txBytes : Bytes)
    (isCheckTx : Bool) : (TxResult × Option String) × Application :=
  let storeTx := a.storeCommitted
  let out := handler storeTx
  let r := out.2.1
  match out.2.2 with
  | some e => ((r, some e), a)
  | none =>
    if isCheckTx then ((r, none), a)
    else
      let saveEvmTxReceipt :=
        (r.info == callEVM) || (r.info == deployEvm) ||
          a.featureReceiptsV3 || (a.receiptsVersion == 3)
      let a1 :=
        if saveEvmTxReceipt then
          match r.receiptHash with
          | some receiptTxHash =>
            if txHash txBytes ≠ receiptTxHash then
              { a with childTxRefs := a.childTxRefs ++ [(txHash txBytes, receiptTxHash)] }
            else a
          | none => a
        else a
      ((r, none), { a1 with storeCommitted := out.1 })

/-- Embeds `Application.deliverTx` (the pre-receipts-v3.1 path). -/
def Application.deliverTx (a : Application) (handler : TxHandlerFn) (txBytes : Bytes) :
    ResponseDeliverTx × Application :=
  match a.processTx handler txBytes false with
  | ((r, some e), a1) =>
    ({ code := 1, data := [], info := "", log := e },
     { a1 with logs := a1.logs ++ ["DeliverTx err: " ++ e] })
  | ((r, none), a1) =>
    ({ code := 0, data := r.data, info := r.info, log := "" }, a1)

/-- Embeds `Application.deliverTx2` (the receipts-v3.1 path): stores the receipt
and cross-reference even when the transaction failed, and only commits the
staged contents on success. -/
def Application.deliverTx2 (a : Application) (handler : TxHandlerFn) (txBytes : Bytes) :
    ResponseDeliverTx × Application :=
  let storeTx := a.storeCommitted
  let out := handler storeTx
  let r := out.2.1
  let a1 :=
    match r.receiptHash with
    | some receiptTxHash =>
      if txHash txBytes ≠ receiptTxHash then
        { a with childTxRefs := a.childTxRefs ++ [(txHash txBytes, receiptTxHash)] }
      else a
    | none => a
  match out.2.2 with
  | some e =>
    ({ code := 1, data := r.data, info := "", log := e },
     { a1 with logs := a1.logs ++ ["DeliverTx err: " ++ e] })
  | none =>
    ({ code := 0, data := r.data, info := r.info, log := "" },
     { a1 with storeCommitted := out.1 })

/-- Embeds `Application.DeliverTx`: dispatches on the EvmTxReceiptsVersion3_1
feature flag. -/
def Application.DeliverTx (a : Application) (handler : TxHandlerFn) (txBytes : Bytes) :
    ResponseDeliverTx × Application :=
  if a.featureReceiptsV31 then a.deliverTx2 handler txBytes
  else a.deliverTx handler txBytes

/-- Collaborator outcomes consumed by `Application.BeginBlock`:
`loadConfig` is `store.LoadOnChainConfig`; `upkeep` is the contract-upkeep
handler (`none` covers both a nil callback and a nil handler, `.ok f` an upkeep
that staged writes `f` on its own transaction); `validatorManager` is
`CreateValidatorManager` + `validatorManager.BeginBlock` (`none` is
`registry.ErrNotFound`, `.error` any creation or BeginBlock failure);
`chainConfigManager` is `CreateChainConfigManager` + `EnableFeatures` +
`UpdateConfig` (`.ok none` a nil manager, `.ok (some n)` success with `n`
config changes, `.error` any failure); `writes` is what the managers staged on
the block transaction, applied at `storeTx.Commit()`. -/
structure BeginBlockCollab where
  loadConfig : Except String Nat
  upkeep : Option (Except String (KVMap → KVMap))
  validatorManager : Option (Except String Unit)
  chainConfigManager : Except String (Option Nat)
  writes : KVMap → KVMap

/-- Did this `Except` succeed? -/
def exceptOk {α : Type} : Except String α → Bool
  | .ok _ => true
  | .error _ => false

/-- All of the BeginBlock collaborators succeed. -/
def BeginBlockCollab.allOk (c : BeginBlockCollab) : Bool :=
  exceptOk c.loadConfig &&
    (match c.upkeep with
     | some (.error _) => false
     | _ => true) &&
    (match c.validatorManager with
     | some (.error _) => false
     | _ => true) &&
    exceptOk c.chainConfigManager

/-- The validator-manager / chain-config-manager / commit tail of BeginBlock. -/
def Application.beginBlockRest (a : Application) (c : BeginBlockCollab) :
    Except String Application :=
  match c.validatorManager with
  | some (.error e) => .error e
  | _ =>
    match c.chainConfigManager with
    | .error e => .error e
    | .ok mgr =>
      let a1 :=
        match mgr with
        | some numConfigChanges =>
          if numConfigChanges > 0 then { a with config := none } else a
        | none => a
      -- storeTx.Commit()
      .ok { a1 with storeCommitted := c.writes a1.storeCommitted }

/-- Embeds `Application.BeginBlock`: panics when the consensus-reported height
differs from `a.height()`; loads the on-chain config when not cached; records
the block header; runs contract upkeep on its own committed-on-success
transaction; runs the validator manager (its absence tolerated) and the chain
config manager (config-change count > 0 invalidates the cached config); commits
the block transaction. -/
def Application.BeginBlock (a : Application) (c : BeginBlockCollab)
    (reqHeight : Int) (reqHash : Bytes) : Except String Application :=
  if reqHeight ≠ a.height then
    .error "app height does not match BeginBlock height"
  else
    match (match a.config with
           | none => c.loadConfig.map some
           | some cfg => .ok (some cfg)) with
    | .error e => .error e
    | .ok cfg =>
      let a1 := { a with curBlockHeight := reqHeight, curBlockHash := reqHash,
                         config := cfg }
      match c.upkeep with
      | some (.error e) => .error e
      | some (.ok f) =>
        -- upkeepStoreTx.Commit()
        Application.beginBlockRest { a1 with storeCommitted := f a1.storeCommitted } c
      | none => Application.beginBlockRest a1 c

/-- Collaborator outcomes consumed by `Application.Commit`: the store's
`SaveVersion()` result (digest and new version, or a persistence failure), the
auxiliary store's `SaveChildTxRefs` error if any, and `Prune()`'s error if any. -/
structure CommitCollab where
  saveVersion : Except String (Nat × Int)
  saveChildTxRefs : Option String
  prune : Option String
deriving Repr

/-- Embeds `Application.Commit`: panics when `SaveVersion` fails; a
`SaveChildTxRefs` failure is logged only; the cross-reference list is cleared;
event notification is dispatched asynchronously (outside this model);
`lastBlockHeader` is advanced; a `Prune()` failure is logged only; and the new
state hash is returned to the consensus engine. -/
def Application.Commit (a : Application) (c : CommitCollab) :
    Except String (ResponseCommit × Application) :=
  match c.saveVersion with
  | .error e => .error e
  | .ok (appHash, newVersion) =>
    let a1 := { a with storeVersion := newVersion }
    let a2 :=
      match c.saveChildTxRefs with
      | some e =>
        { a1 with logs :=
            a1.logs ++ ["Failed to save Tendermint -> EVM tx hash refs: " ++ e] }
      | none => a1
    let a3 := { a2 with childTxRefs := [] }
    let a4 := { a3 with lastBlockHeight := a3.curBlockHeight }
    let a5 :=
      match c.prune with
      | some e => { a4 with logs := a4.logs ++ ["failed to prune app.db: " ++ e] }
      | none => a4
    .ok ({ data := appHash }, a5)

/-! Helper lemmas about Prune. -/

theorem prune_eq_erase (s : IAVLStore) :
    s.Prune =
      if s.version - s.maxVersions < 1 then s
      else { s with versions := s.versions.erase (s.version - s.maxVersions) } := by
  simp only [IAVLStore.Prune, IAVLStore.Version]
  by_cases h1 : s.version - s.maxVersions < 1
  · rw [if_pos h1, if_pos h1]
  · rw [if_neg h1, if_neg h1]
    by_cases h2 : s.version - s.maxVersions ∈ s.versions
    · rw [if_pos h2]
    · rw [if_neg h2, List.erase_of_not_mem h2]

theorem prune_mem_iff {s : IAVLStore} (h2 : 2 ≤ s.maxVersions) {v : Int}
    (hv : s.version - 1 ≤ v) : v ∈ s.Prune.versions ↔ v ∈ s.versions := by
  rw [prune_eq_erase]
  split
  · exact Iff.rfl
  · next hold =>
    exact List.mem_erase_of_ne (by omega)

/-- C1: a store built by `NewIAVLStore` has `maxVersions ≥ 2`; `Prune` is a
no-op when `oldVersion = currentVersion - maxVersions < 1` and otherwise
deletes exactly that one version, so it never deletes `currentVersion` or
`currentVersion - 1` and the two most recent versions stay retrievable. -/
theorem newIAVLStore_prune_keeps_two_recent (contents : KVMap) (versions : List Int)
    (ver mv : Int) :
    2 ≤ (NewIAVLStore contents versions ver mv).maxVersions ∧
    (NewIAVLStore contents versions ver mv).Prune =
      (if ver - (NewIAVLStore contents versions ver mv).maxVersions < 1 then
        NewIAVLStore contents versions ver mv
       else
        { NewIAVLStore contents versions ver mv with
            versions :=
              versions.erase (ver - (NewIAVLStore contents versions ver mv).maxVersions) }) ∧
    (ver ∈ (NewIAVLStore contents versions ver mv).Prune.versions ↔ ver ∈ versions) ∧
    (ver - 1 ∈ (NewIAVLStore contents versions ver mv).Prune.versions ↔
      ver - 1 ∈ versions) := by
  have h2 : 2 ≤ (NewIAVLStore contents versions ver mv).maxVersions := by
    simp only [NewIAVLStore]
    split <;> omega
  refine ⟨h2, prune_eq_erase _, ?_, ?_⟩
  · exact prune_mem_iff h2 (by simp only [NewIAVLStore]; omega)
  · exact prune_mem_iff h2 (by simp only [NewIAVLStore]; omega)

/-- C2: CheckTx only ever operates through a disposable transaction that is
rolled back on every path, so whatever the handler does and whether the
transaction is accepted or rejected, the canonical store's committed state
(contents and version) is unchanged. -/
theorem checkTx_never_mutates_canonical_store (a : Application) (handler : TxHandlerFn)
    (txBytes : Bytes) :
    (a.CheckTx handler txBytes).2.storeCommitted = a.storeCommitted ∧
    (a.CheckTx handler txBytes).2.storeVersion = a.storeVersion := by
  simp only [Application.CheckTx]
  by_cases h0 : a.curBlockHeight = 0
  · rw [if_pos h0]
    exact ⟨rfl, rfl⟩
  · rw [if_neg h0]
    cases h : (handler a.storeCommitted).2.2 <;> simp [h]

/-- C5: BeginBlock is fatal when the consensus-supplied height differs from
`store.Version() + 1` (the fatality does not depend on any collaborator), and
when all collaborators succeed it is fatal only in that case — with equal
heights it proceeds normally. -/
theorem beginBlock_fatal_iff_height_mismatch (a : Application) (c : BeginBlockCollab)
    (reqHeight : Int) (reqHash : Bytes) :
    (reqHeight ≠ a.height →
      a.BeginBlock c reqHeight reqHash =
        .error "app height does not match BeginBlock height") ∧
    (c.allOk = true →
      (exceptOk (a.BeginBlock c reqHeight reqHash) = true ↔ reqHeight = a.height)) := by
  constructor
  · intro hne
    unfold Application.BeginBlock
    rw [if_pos hne]
  · intro hok
    by_cases he : reqHeight = a.height
    · simp only [he, iff_true]
      obtain ⟨lc, up, vm, ccm, wr⟩ := c
      simp only [BeginBlockCollab.allOk, Bool.and_eq_true] at hok
      obtain ⟨⟨⟨hlc, hup⟩, hvm⟩, hccm⟩ := hok
      unfold Application.BeginBlock
      rw [if_neg (by simp [he])]
      cases lc with
      | error e => simp [exceptOk] at hlc
      | ok cfgv =>
        cases ccm with
        | error e => simp [exceptOk] at hccm
        | ok mgr =>
          cases a.config <;>
            cases up with
            | none =>
              cases vm with
              | none => cases mgr <;> simp [Application.beginBlockRest, exceptOk, Except.map]
              | some r =>
                cases r with
                | error e => simp at hvm
                | ok u => cases mgr <;> simp [Application.beginBlockRest, exceptOk, Except.map]
            | some r =>
              cases r with
              | error e => simp at hup
              | ok f =>
                cases vm with
                | none => cases mgr <;> simp [Application.beginBlockRest, exceptOk, Except.map]
                | some r2 =>
                  cases r2 with
                  | error e => simp at hvm
                  | ok u => cases mgr <;> simp [Application.beginBlockRest, exceptOk, Except.map]
    · simp only [he, iff_false]
      unfold Application.BeginBlock
      rw [if_pos he]
      simp [exceptOk]

/-- C6: Commit panics exactly when the store's SaveVersion fails; when
SaveVersion succeeds, auxiliary cross-reference persistence failures and Prune
failures are logged but not fatal, and Commit still returns the new state hash
produced by SaveVersion. -/
theorem commit_fatal_only_on_saveVersion (a : Application) (c : CommitCollab) :
    (∀ e, c.saveVersion = .error e → a.Commit c = .error e) ∧
    (∀ hsh newVer, c.saveVersion = .ok (hsh, newVer) →
      ∃ a', a.Commit c = .ok ({ data := hsh }, a')) := by
  constructor
  · intro e he
    unfold Application.Commit
    rw [he]
  · intro hsh newVer hv
    unfold Application.Commit
    rw [hv]
    exact ⟨_, rfl⟩

/-! Correctness of the range upper bound: a key lies in the half-open interval
the code queries exactly when it starts with the queried byte string. -/

theorem decide_eq_bool {P : Prop} [Decidable P] {b : Bool} (h : P ↔ b = true) :
    decide P = b := by
  cases b
  · simp only [decide_eq_false_iff_not]
    simp at h
    exact h
  · simp only [decide_eq_true_eq]
    exact h.2 rfl

theorem rangeEndLoop_eq : ∀ (rest : Bytes) (b : Nat),
    rangeEndLoop b rest =
      match (b :: rest).dropWhile (fun x => decide (x = 255)) with
      | [] => none
      | c :: r => some ((c + 1) :: r) := by
  intro rest
  induction rest with
  | nil =>
    intro b
    by_cases hb : b = 255
    · subst hb
      simp [rangeEndLoop, List.dropWhile]
    · simp [rangeEndLoop, hb, List.dropWhile]
  | cons b2 rest2 ih =>
    intro b
    by_cases hb : b = 255
    · subst hb
      have hstep : rangeEndLoop 255 (b2 :: rest2) = rangeEndLoop b2 rest2 := by
        simp [rangeEndLoop]
      rw [hstep, ih b2]
      simp [List.dropWhile]
    · simp [rangeEndLoop, hb, List.dropWhile]

theorem dropWhile_head_not {p : Nat → Bool} :
    ∀ {l : Bytes} {c : Nat} {r : Bytes}, l.dropWhile p = c :: r → p c = false := by
  intro l
  induction l with
  | nil => intro c r h; cases h
  | cons a t ih =>
    intro c r h
    by_cases ha : p a = true
    · rw [List.dropWhile_cons, if_pos ha] at h
      exact ih h
    · rw [List.dropWhile_cons, if_neg ha] at h
      cases h
      exact Bool.eq_false_iff.2 ha

theorem le_ff_run_iff_hasPref : ∀ (f j : Bytes), (∀ x ∈ f, x = 255) →
    (∀ b ∈ j, b ≤ 255) →
    ((bytesCompare f j ≠ .gt) ↔ hasPref f j = true) := by
  intro f
  induction f with
  | nil =>
    intro j _ _
    cases j <;> simp [bytesCompare, hasPref]
  | cons x f' ih =>
    intro j hf hj
    have hx : x = 255 := hf x (List.mem_cons_self _ _)
    subst hx
    cases j with
    | nil => simp [bytesCompare, hasPref]
    | cons j0 j' =>
      have hj0 : j0 ≤ 255 := hj j0 (List.mem_cons_self _ _)
      rcases Nat.lt_trichotomy j0 255 with hlt | heq | hgt
      · have h1 : ¬(255 < j0) := by omega
        have h2 : ¬(255 = j0) := by omega
        simp only [bytesCompare, hasPref, if_neg h1, if_pos hlt]
        simp [h2]
      · have h1 : ¬(255 < j0) := by omega
        have h2 : ¬(j0 < 255) := by omega
        subst heq
        simp only [bytesCompare, hasPref, if_neg h1, if_neg h2]
        simp only [beq_self_eq_true, Bool.true_and]
        exact ih j' (fun y hy => hf y (List.mem_cons_of_mem _ hy))
          (fun b hb => hj b (List.mem_cons_of_mem _ hb))
      · omega

theorem interval_iff_hasPref : ∀ (q : Bytes) (c : Nat) (f j : Bytes),
    (∀ x ∈ f, x = 255) → (∀ b ∈ j, b ≤ 255) →
    ((bytesCompare (q ++ c :: f) j ≠ .gt ∧ bytesCompare j (q ++ [c + 1]) = .lt) ↔
      hasPref (q ++ c :: f) j = true) := by
  intro q
  induction q with
  | nil =>
    intro c f j hf hj
    cases j with
    | nil => simp [bytesCompare, hasPref]
    | cons j0 j' =>
      simp only [List.nil_append]
      rcases Nat.lt_trichotomy j0 c with hlt | heq | hgt
      · have h1 : ¬(c < j0) := by omega
        have h2 : ¬(c = j0) := by omega
        simp only [bytesCompare, hasPref, if_neg h1, if_pos hlt]
        simp [h2]
      · subst heq
        have h1 : ¬(j0 < j0) := Nat.lt_irrefl j0
        have h2 : j0 < j0 + 1 := Nat.lt_succ_self j0
        simp only [bytesCompare, hasPref, if_neg h1, if_pos h2]
        simp only [ne_eq, beq_self_eq_true, Bool.true_and, true_and]
        constructor
        · intro ⟨hle, _⟩
          exact (le_ff_run_iff_hasPref f j' hf
            (fun b hb => hj b (List.mem_cons_of_mem _ hb))).1 hle
        · intro hpf
          exact ⟨(le_ff_run_iff_hasPref f j' hf
            (fun b hb => hj b (List.mem_cons_of_mem _ hb))).2 hpf, trivial⟩
      · have h2 : ¬(c = j0) := by omega
        rcases Nat.lt_trichotomy j0 (c + 1) with h1 | h1 | h1
        · omega
        · have h3 : ¬(j0 < c + 1) := by omega
          have h4 : ¬(c + 1 < j0) := by omega
          simp only [bytesCompare, hasPref, if_pos hgt, if_neg h3, if_neg h4]
          cases j' <;> simp [bytesCompare, h2]
        · have h3 : ¬(j0 < c + 1) := by omega
          simp only [bytesCompare, hasPref, if_pos hgt, if_neg h3, if_pos h1]
          simp [h2]
  | cons a q' ih =>
    intro c f j hf hj
    cases j with
    | nil => simp [bytesCompare, hasPref]
    | cons j0 j' =>
      simp only [List.cons_append]
      rcases Nat.lt_trichotomy j0 a with hlt | heq | hgt
      · have h1 : ¬(a < j0) := by omega
        have h2 : ¬(a = j0) := by omega
        simp only [bytesCompare, hasPref, if_neg h1, if_pos hlt]
        simp [h2]
      · subst heq
        have h1 : ¬(j0 < j0) := Nat.lt_irrefl j0
        simp only [bytesCompare, hasPref, if_neg h1]
        simp only [beq_self_eq_true, Bool.true_and]
        exact ih c f j' hf (fun b hb => hj b (List.mem_cons_of_mem _ hb))
      · have h1 : ¬(j0 < a) := by omega
        have h2 : ¬(a = j0) := by omega
        simp only [bytesCompare, hasPref, if_pos hgt, if_neg h1]
        simp [h2]

/-- C7: for a non-empty prefix of bytes, `prefixRangeEnd` yields the upper bound
obtained by trimming trailing 0xFF bytes and incrementing the last remaining
byte (absent when every byte is 0xFF); a key lies in the half-open interval
`[prefix, upperBound)` exactly when it starts with the prefix; and Range over a
correct engine returns exactly the stored pairs whose keys start with the
prefix. -/
theorem range_returns_exactly_matching_keys (s : IAVLStore) (p : Bytes) (hp : p ≠ [])
    (hpb : ∀ b ∈ p, b ≤ 255) (hk : ∀ kv ∈ s.contents, ∀ b ∈ kv.1, b ≤ 255) :
    ∃ ub, prefixRangeEnd (some p) = .ok ub ∧
      (∀ k, (∀ b ∈ k, b ≤ 255) → inKeyRange (some p) ub k = hasPref p k) ∧
      s.RangeWith honestEngine (some p) =
        .ok (s.contents.filter (fun kv => hasPref p kv.1)) := by
  rcases hrev : p.reverse with _ | ⟨b, rest⟩
  · exact absurd (by simpa using congrArg List.reverse hrev) hp
  have hpre : prefixRangeEnd (some p) = .ok ((rangeEndLoop b rest).map List.reverse) := by
    simp only [prefixRangeEnd, hrev]
  have hloop := rangeEndLoop_eq rest b
  rw [← hrev] at hloop
  have hkey : ∀ k, (∀ b ∈ k, b ≤ 255) →
      inKeyRange (some p) ((rangeEndLoop b rest).map List.reverse) k = hasPref p k := by
    intro k hkb
    rcases hdw : p.reverse.dropWhile (fun x => decide (x = 255)) with _ | ⟨c, r⟩
    · -- every byte of p is 255: the upper bound is absent
      have hff : ∀ x ∈ p, x = 255 := by
        intro x hx
        have := (List.dropWhile_eq_nil_iff.1 hdw) x (List.mem_reverse.2 hx)
        exact of_decide_eq_true this
      rw [hloop, hdw]
      simp only [Option.map_none', inKeyRange, Bool.and_true]
      exact decide_eq_bool (le_ff_run_iff_hasPref p k hff hkb)
    · -- p = q ++ c :: f with f a run of 255s; the upper bound is q ++ [c+1]
      have hdecomp : p = r.reverse ++ c ::
          (p.reverse.takeWhile (fun x => decide (x = 255))).reverse := by
        have hsplit := List.takeWhile_append_dropWhile
          (p := fun x => decide (x = 255)) (l := p.reverse)
        rw [hdw] at hsplit
        have := congrArg List.reverse hsplit
        simpa [List.reverse_append] using this.symm
      have hff : ∀ z ∈ (p.reverse.takeWhile (fun x => decide (x = 255))).reverse,
          z = 255 := by
        intro z hz
        exact of_decide_eq_true
          (List.mem_takeWhile_imp (p := fun x => decide (x = 255))
            (List.mem_reverse.1 hz))
      rw [hloop, hdw]
      simp only [Option.map_some', inKeyRange, List.reverse_cons]
      rw [← Bool.decide_and]
      refine decide_eq_bool ?_
      have hiff := interval_iff_hasPref r.reverse c
        (p.reverse.takeWhile (fun x => decide (x = 255))).reverse k hff hkb
      rw [← hdecomp] at hiff
      exact hiff
  refine ⟨_, hpre, hkey, ?_⟩
  unfold IAVLStore.RangeWith
  rw [hpre]
  simp only [honestEngine]
  congr 1
  apply List.filter_congr
  intro kv hkv
  exact hkey kv.1 (hk kv hkv)

/-- C8 (counterexample): `prefixRangeEnd` guards only against a nil slice; on a
non-nil zero-length prefix it evaluates `end[len(end)-1]` with `len(end) = 0`,
an out-of-bounds access, contradicting the claim that the upper-bound
computation never goes out of bounds on an empty (zero-length) prefix. -/
theorem rangeEnd_oob_on_empty_nonnil_pre :
    prefixRangeEnd (some []) = .error "runtime error: index out of range" := rfl

/-- C8 (amended): when the prefix is the nil slice, the range is unbounded on
both sides, `prefixRangeEnd` performs no out-of-bounds access, and Range over a
correct engine returns the whole mapping. -/
theorem range_nil_unbounded_returns_all (s : IAVLStore) :
    prefixRangeEnd none = .ok none ∧
      s.RangeWith honestEngine none = .ok s.contents := by
  refine ⟨rfl, ?_⟩
  unfold IAVLStore.RangeWith honestEngine
  simp only [prefixRangeEnd]
  congr 1
  rw [List.filter_eq_self]
  intro kv _
  rfl

/-- C9: an error produced by the backing engine during a range query is not
propagated — Range returns exactly the (possibly empty) partial result already
gathered by the engine, whatever the engine's error. -/
theorem range_swallows_engine_error (s : IAVLStore)
    (engine : IAVLStore → Option Bytes → Option Bytes → List (Bytes × Bytes) × Option String)
    (pre endKey : Option Bytes) (h : prefixRangeEnd pre = .ok endKey) :
    s.RangeWith engine pre = .ok (engine s pre endKey).1 := by
  unfold IAVLStore.RangeWith
  rw [h]

theorem deliverTx_fail_core (a : Application) (handler : TxHandlerFn) (txBytes : Bytes)
    (e : String) (hfail : (handler a.storeCommitted).2.2 = some e) :
    (a.DeliverTx handler txBytes).1.code = 1 ∧
    (a.DeliverTx handler txBytes).1.log = e ∧
    (a.DeliverTx handler txBytes).2.storeCommitted = a.storeCommitted := by
  rcases hout : handler a.storeCommitted with ⟨st, r, err⟩
  rw [hout] at hfail
  simp only at hfail
  subst hfail
  unfold Application.DeliverTx
  by_cases hf : a.featureReceiptsV31
  · rw [if_pos hf]
    simp only [Application.deliverTx2, hout]
    cases r.receiptHash with
    | none => simp
    | some rh => by_cases hne : txHash txBytes ≠ rh <;> simp [hne]
  · rw [if_neg hf]
    simp [Application.deliverTx, Application.processTx, hout]

theorem deliverTx_success_commits (a : Application) (handler : TxHandlerFn)
    (txBytes : Bytes) (hok : (handler a.storeCommitted).2.2 = none) :
    (a.DeliverTx handler txBytes).2.storeCommitted = (handler a.storeCommitted).1 := by
  rcases hout : handler a.storeCommitted with ⟨st, r, err⟩
  rw [hout] at hok
  simp only at hok
  subst hok
  unfold Application.DeliverTx
  by_cases hf : a.featureReceiptsV31
  · rw [if_pos hf]
    simp [Application.deliverTx2, hout]
  · rw [if_neg hf]
    simp [Application.deliverTx, Application.processTx, hout]

/-! Canonical-contents invariant and extensionality, for the determinism claim. -/

/-- The canonical-contents invariant: keys strictly increasing in the
`bytesCompare` order. -/
def KVSorted (m : KVMap) : Prop :=
  m.Pairwise (fun x y => bytesCompare x.1 y.1 = .lt)

theorem mem_insertSorted {k v : Bytes} :
    ∀ {m : KVMap} {x : Bytes × Bytes}, x ∈ insertSorted k v m → x = (k, v) ∨ x ∈ m := by
  intro m
  induction m with
  | nil =>
    intro x hx
    simp [insertSorted] at hx
    exact Or.inl hx
  | cons hd tl ih =>
    intro x hx
    obtain ⟨k', v'⟩ := hd
    simp only [insertSorted] at hx
    cases hcmp : bytesCompare k k' <;> simp only [hcmp] at hx
    · rcases List.mem_cons.1 hx with h | h
      · exact Or.inl h
      · exact Or.inr h
    · rcases List.mem_cons.1 hx with h | h
      · exact Or.inl h
      · exact Or.inr (List.mem_cons_of_mem _ h)
    · rcases List.mem_cons.1 hx with h | h
      · exact Or.inr (h ▸ List.mem_cons_self _ _)
      · rcases ih h with h' | h'
        · exact Or.inl h'
        · exact Or.inr (List.mem_cons_of_mem _ h')

theorem KVSorted_insertSorted {k v : Bytes} :
    ∀ {m : KVMap}, KVSorted m → KVSorted (insertSorted k v m) := by
  intro m
  induction m with
  | nil =>
    intro _
    simp [insertSorted, KVSorted]
  | cons hd tl ih =>
    intro hs
    obtain ⟨k', v'⟩ := hd
    rw [KVSorted, List.pairwise_cons] at hs
    obtain ⟨hmin, htl⟩ := hs
    simp only [insertSorted]
    cases hcmp : bytesCompare k k'
    · rw [KVSorted, List.pairwise_cons]
      refine ⟨?_, List.pairwise_cons.2 ⟨hmin, htl⟩⟩
      intro x hx
      rcases List.mem_cons.1 hx with rfl | hx'
      · exact hcmp
      · exact bytesCompare_lt_trans hcmp (hmin x hx')
    · have hk : k = k' := bytesCompare_eq_iff.1 hcmp
      rw [KVSorted, List.pairwise_cons]
      exact ⟨fun x hx => hk ▸ hmin x hx, htl⟩
    · rw [KVSorted, List.pairwise_cons]
      constructor
      · intro x hx
        rcases mem_insertSorted hx with rfl | hx'
        · exact bytesCompare_gt_iff.1 hcmp
        · exact hmin x hx'
      · exact ih htl

theorem KVSorted_deleteKey {k : Bytes} {m : KVMap} (hs : KVSorted m) :
    KVSorted (deleteKey k m) :=
  List.Pairwise.sublist (List.filter_sublist m) hs

theorem lookupKV_mem : ∀ {m : KVMap} {k v : Bytes}, lookupKV k m = some v → (k, v) ∈ m := by
  intro m
  induction m with
  | nil => intro k v h; cases h
  | cons hd tl ih =>
    intro k v h
    obtain ⟨k', v'⟩ := hd
    simp only [lookupKV] at h
    by_cases hk : k = k'
    · rw [if_pos hk] at h
      subst hk
      cases h
      exact List.mem_cons_self _ _
    · rw [if_neg hk] at h
      exact List.mem_cons_of_mem _ (ih h)

theorem kvmap_ext : ∀ {m1 m2 : KVMap}, KVSorted m1 → KVSorted m2 →
    (∀ k, lookupKV k m1 = lookupKV k m2) → m1 = m2 := by
  intro m1
  induction m1 with
  | nil =>
    intro m2 _ _ h
    cases m2 with
    | nil => rfl
    | cons hd tl =>
      obtain ⟨k2, v2⟩ := hd
      have := h k2
      simp [lookupKV] at this
  | cons hd tl ih =>
    intro m2 hs1 hs2 h
    obtain ⟨k1, v1⟩ := hd
    cases m2 with
    | nil =>
      have := h k1
      simp [lookupKV] at this
    | cons hd2 tl2 =>
      obtain ⟨k2, v2⟩ := hd2
      rw [KVSorted, List.pairwise_cons] at hs1 hs2
      obtain ⟨hmin1, htl1⟩ := hs1
      obtain ⟨hmin2, htl2⟩ := hs2
      have hk12 : k1 = k2 := by
        by_contra hne
        have h1 : lookupKV k1 ((k2, v2) :: tl2) = some v1 := by
          rw [← h k1]
          simp [lookupKV]
        simp only [lookupKV, if_neg hne] at h1
        have hlt2 : bytesCompare k2 k1 = .lt := hmin2 _ (lookupKV_mem h1)
        have h2 : lookupKV k2 ((k1, v1) :: tl) = some v2 := by
          rw [h k2]
          simp [lookupKV]
        simp only [lookupKV, if_neg (Ne.symm hne)] at h2
        have hlt1 : bytesCompare k1 k2 = .lt := hmin1 _ (lookupKV_mem h2)
        have hbad : bytesCompare k1 k1 = .lt := bytesCompare_lt_trans hlt1 hlt2
        rw [bytesCompare_refl] at hbad
        cases hbad
      subst hk12
      have hv : v1 = v2 := by
        have := h k1
        simp [lookupKV] at this
        exact this
      subst hv
      congr 1
      apply ih htl1 htl2
      intro k
      by_cases hk : k = k1
      · subst hk
        have e1 : lookupKV k tl = none := by
          cases he : lookupKV k tl with
          | none => rfl
          | some v =>
            have hbad := hmin1 _ (lookupKV_mem he)
            rw [bytesCompare_refl] at hbad
            cases hbad
        have e2 : lookupKV k tl2 = none := by
          cases he : lookupKV k tl2 with
          | none => rfl
          | some v =>
            have hbad := hmin2 _ (lookupKV_mem he)
            rw [bytesCompare_refl] at hbad
            cases hbad
        rw [e1, e2]
      · have := h k
        simp only [lookupKV, if_neg hk] at this
        exact this

theorem KVSorted_applyOp {s : IAVLStore} (hs : KVSorted s.contents) (op : StoreOp) :
    KVSorted (applyOp s op).contents := by
  cases op with
  | set k v => exact KVSorted_insertSorted hs
  | del k => exact KVSorted_deleteKey hs

theorem applyOps_fields : ∀ (ops : List StoreOp) (s : IAVLStore),
    (applyOps s ops).versions = s.versions ∧ (applyOps s ops).version = s.version ∧
    (applyOps s ops).maxVersions = s.maxVersions ∧
    (KVSorted s.contents → KVSorted (applyOps s ops).contents) := by
  intro ops
  induction ops with
  | nil => intro s; exact ⟨rfl, rfl, rfl, id⟩
  | cons op rest ih =>
    intro s
    have happ : applyOps s (op :: rest) = applyOps (applyOp s op) rest := rfl
    rw [happ]
    obtain ⟨h1, h2, h3, h4⟩ := ih (applyOp s op)
    refine ⟨?_, ?_, ?_, ?_⟩
    · rw [h1]; cases op <;> rfl
    · rw [h2]; cases op <;> rfl
    · rw [h3]; cases op <;> rfl
    · intro hs
      exact h4 (KVSorted_applyOp hs op)

/-- C3: the hash saved by `SaveVersion()` is a pure function of the final
key/value mapping: any two sequences of Set/Delete operations that produce the
same final mapping (pointwise-equal `Get`) yield the same `Hash` and the same
`SaveVersion` outcome, independent of operation order. -/
theorem saveVersion_hash_order_independent (ops1 ops2 : List StoreOp)
    (h : ∀ k, (applyOps emptyIAVLStore ops1).Get k = (applyOps emptyIAVLStore ops2).Get k) :
    (applyOps emptyIAVLStore ops1).Hash = (applyOps emptyIAVLStore ops2).Hash ∧
    (applyOps emptyIAVLStore ops1).SaveVersion none =
      (applyOps emptyIAVLStore ops2).SaveVersion none := by
  have hs1 : KVSorted (applyOps emptyIAVLStore ops1).contents :=
    (applyOps_fields ops1 emptyIAVLStore).2.2.2 List.Pairwise.nil
  have hs2 : KVSorted (applyOps emptyIAVLStore ops2).contents :=
    (applyOps_fields ops2 emptyIAVLStore).2.2.2 List.Pairwise.nil
  have hc : (applyOps emptyIAVLStore ops1).contents =
      (applyOps emptyIAVLStore ops2).contents :=
    kvmap_ext hs1 hs2 h
  have hst : applyOps emptyIAVLStore ops1 = applyOps emptyIAVLStore ops2 := by
    apply IAVLStore.ext
    · exact hc
    · rw [(applyOps_fields ops1 _).1, (applyOps_fields ops2 _).1]
    · rw [(applyOps_fields ops1 _).2.1, (applyOps_fields ops2 _).2.1]
    · rw [(applyOps_fields ops1 _).2.2.1, (applyOps_fields ops2 _).2.2.1]
  rw [hst]
  exact ⟨rfl, rfl⟩

/-- C4: when the transaction-processing callback fails in DeliverTx, the staged
writes are rolled back — the canonical committed state is unchanged — and the
failure is surfaced as a rejected-transaction result (code 1 carrying the error
message); a subsequent successful transaction in the same block still commits
its own staged writes against the same committed state. -/
theorem deliverTx_failure_isolated (a : Application) (handler handler2 : TxHandlerFn)
    (txBytes txBytes2 : Bytes) (e : String)
    (hfail : (handler a.storeCommitted).2.2 = some e)
    (hok : (handler2 a.storeCommitted).2.2 = none) :
    (a.DeliverTx handler txBytes).1.code = 1 ∧
    (a.DeliverTx handler txBytes).1.log = e ∧
    (a.DeliverTx handler txBytes).2.storeCommitted = a.storeCommitted ∧
    (((a.DeliverTx handler txBytes).2.DeliverTx handler2 txBytes2).2.storeCommitted =
      (handler2 a.storeCommitted).1) := by
  obtain ⟨hc, hl, hs⟩ := deliverTx_fail_core a handler txBytes e hfail
  refine ⟨hc, hl, hs, ?_⟩
  have h2 := deliverTx_success_commits ((a.DeliverTx handler txBytes).2) handler2 txBytes2
    (by rw [hs]; exact hok)
  rw [hs] at h2
  exact h2

/-- C10: before any block has begun (the current block header height is 0, as
right after a restart), CheckTx accepts immediately with code OK, leaves the
application untouched, and never invokes the transaction-processing callback
(its outcome is the same for any two callbacks). -/
theorem checkTx_skips_handler_before_first_block (a : Application)
    (h0 : a.curBlockHeight = 0) (handler handler2 : TxHandlerFn) (tx : Bytes) :
    (a.CheckTx handler tx).1.code = 0 ∧
    a.CheckTx handler tx = ({ code := 0, log := "" }, a) ∧
    a.CheckTx handler tx = a.CheckTx handler2 tx := by
  unfold Application.CheckTx
  rw [if_pos h0]
  exact ⟨rfl, rfl, by rw [if_pos h0]⟩

/-! Concrete instances used by the witnesses. -/

/-- An application that has committed three versions (`store.Version() = 3`). -/
def witnessApp : Application :=
  { storeCommitted := [], storeVersion := 3, curBlockHeight := 3, lastBlockHeight := 2,
    curBlockHash := [], config := some 0, childTxRefs := [], featureReceiptsV31 := false,
    featureReceiptsV3 := false, receiptsVersion := 2, logs := [] }

/-- BeginBlock collaborators that all succeed. -/
def witnessCollab : BeginBlockCollab :=
  { loadConfig := .ok 0, upkeep := none, validatorManager := none,
    chainConfigManager := .ok none, writes := id }

/-- A Commit round where SaveVersion succeeds but the auxiliary store and Prune
both fail. -/
def commitOkCollab : CommitCollab :=
  { saveVersion := .ok (42, 7), saveChildTxRefs := some "aux boom",
    prune := some "prune boom" }

/-- A Commit round where SaveVersion fails. -/
def commitErrCollab : CommitCollab :=
  { saveVersion := .error "disk full", saveChildTxRefs := none, prune := none }

/-- A backing engine that returns a partial result together with an error. -/
def failingEngine :
    IAVLStore → Option Bytes → Option Bytes → List (Bytes × Bytes) × Option String :=
  fun _ _ _ => ([([1], [2])], some "range-error: proof mismatch")

/-- A callback that rejects the transaction. -/
def rejectHandler : TxHandlerFn :=
  fun m => (m, { data := [], info := "", receiptHash := none }, some "invalid tx")

/-- A callback that stages a write and succeeds. -/
def writeHandler : TxHandlerFn :=
  fun m => (insertSorted [9] [9] m, { data := [7], info := "", receiptHash := none }, none)

/-- A callback that stages a write and then fails. -/
def failHandler : TxHandlerFn :=
  fun m => (insertSorted [5] [5] m, { data := [9], info := "", receiptHash := none },
    some "bad tx")

/-- An application freshly restarted: no block has begun (`curBlockHeader.Height = 0`). -/
def restartApp : Application :=
  { storeCommitted := [([1], [1])], storeVersion := 5, curBlockHeight := 0,
    lastBlockHeight := 0, curBlockHash := [], config := none, childTxRefs := [],
    featureReceiptsV31 := false, featureReceiptsV3 := false, receiptsVersion := 2,
    logs := [] }

/-- An application in the middle of block 6. -/
def deliverApp : Application :=
  { storeCommitted := [([1], [1])], storeVersion := 5, curBlockHeight := 6,
    lastBlockHeight := 5, curBlockHash := [2], config := some 0, childTxRefs := [],
    featureReceiptsV31 := false, featureReceiptsV3 := false, receiptsVersion := 2,
    logs := [] }

/-- The spec's example store: keys "ab", "abc", "ac", "b". -/
def demoStore : IAVLStore :=
  { contents := [([97, 98], [1]), ([97, 98, 99], [2]), ([97, 99], [3]), ([98], [4])],
    versions := [], version := 0, maxVersions := 2 }

/-- Witness for C3 at two concrete op sequences applying the same writes in a
different order (one via a delete): the hypothesis holds definitionally and the
hashes agree. -/
theorem saveVersion_hash_order_independent_witness :
    (applyOps emptyIAVLStore [.set [1] [10], .set [2] [20], .del [1]]).Hash =
      (applyOps emptyIAVLStore [.set [2] [20]]).Hash ∧
    (applyOps emptyIAVLStore [.set [1] [10], .set [2] [20], .del [1]]).SaveVersion none =
      (applyOps emptyIAVLStore [.set [2] [20]]).SaveVersion none :=
  saveVersion_hash_order_independent
    [.set [1] [10], .set [2] [20], .del [1]] [.set [2] [20]] (fun k => rfl)

/-- Witness for C4 at a concrete failing then succeeding transaction. -/
theorem deliverTx_failure_isolated_witness :
    (deliverApp.DeliverTx failHandler [3]).1.code = 1 ∧
    (deliverApp.DeliverTx failHandler [3]).1.log = "bad tx" ∧
    (deliverApp.DeliverTx failHandler [3]).2.storeCommitted = deliverApp.storeCommitted ∧
    (((deliverApp.DeliverTx failHandler [3]).2.DeliverTx writeHandler [4]).2.storeCommitted =
      (writeHandler deliverApp.storeCommitted).1) :=
  deliverTx_failure_isolated deliverApp failHandler writeHandler [3] [4] "bad tx" rfl rfl

/-- Witness for C5: with all collaborators succeeding and `store.Version() = 3`,
`BeginBlock(5)` is fatal while `BeginBlock(4)` proceeds. -/
theorem beginBlock_fatal_iff_height_mismatch_witness :
    witnessCollab.allOk = true ∧
    witnessApp.BeginBlock witnessCollab 5 [] =
      .error "app height does not match BeginBlock height" ∧
    exceptOk (witnessApp.BeginBlock witnessCollab 4 []) = true :=
  ⟨rfl,
   (beginBlock_fatal_iff_height_mismatch witnessApp witnessCollab 5 []).1 (by decide),
   ((beginBlock_fatal_iff_height_mismatch witnessApp witnessCollab 4 []).2 rfl).2
     (by decide)⟩

/-- Witness for C6 at concrete Commit collaborator outcomes. -/
theorem commit_fatal_only_on_saveVersion_witness :
    witnessApp.Commit commitErrCollab = .error "disk full" ∧
    ∃ a', witnessApp.Commit commitOkCollab = .ok ({ data := 42 }, a') :=
  ⟨(commit_fatal_only_on_saveVersion witnessApp commitErrCollab).1 "disk full" rfl,
   (commit_fatal_only_on_saveVersion witnessApp commitOkCollab).2 42 7 rfl⟩

/-- Witness for C7 at the spec's example: over keys "ab", "abc", "ac", "b",
Range("ab") returns exactly "ab" and "abc". -/
theorem range_returns_exactly_matching_keys_witness :
    (∃ ub, prefixRangeEnd (some [97, 98]) = .ok ub ∧
      (∀ k, (∀ b ∈ k, b ≤ 255) → inKeyRange (some [97, 98]) ub k = hasPref [97, 98] k) ∧
      demoStore.RangeWith honestEngine (some [97, 98]) =
        .ok (demoStore.contents.filter (fun kv => hasPref [97, 98] kv.1))) ∧
    demoStore.contents.filter (fun kv => hasPref [97, 98] kv.1) =
      [([97, 98], [1]), ([97, 98, 99], [2])] :=
  ⟨range_returns_exactly_matching_keys demoStore [97, 98] (by decide) (by decide)
    (by decide), by decide⟩

/-- Witness for C9 at a concrete erroring engine: the partial result is
returned and the error is swallowed. -/
theorem range_swallows_engine_error_witness :
    emptyIAVLStore.RangeWith failingEngine none = .ok [([1], [2])] :=
  range_swallows_engine_error emptyIAVLStore failingEngine none none rfl

/-- Witness for C10 at a freshly restarted application and two observably
different callbacks. -/
theorem checkTx_skips_handler_before_first_block_witness :
    (restartApp.CheckTx rejectHandler [1, 2]).1.code = 0 ∧
    restartApp.CheckTx rejectHandler [1, 2] = ({ code := 0, log := "" }, restartApp) ∧
    restartApp.CheckTx rejectHandler [1, 2] = restartApp.CheckTx writeHandler [1, 2] :=
  checkTx_skips_handler_before_first_block restartApp rfl rejectHandler writeHandler [1, 2]

end Loomchain
